import Mathlib

/-!
# Verification of the segment rendering core (`src/segment.rs`)

This file is a shallow embedding of the segment data model and its operations:
text segments, fill segments (cyclic pattern repetition bounded by a display
width), separator segments (direction parsing and neighbor-derived styles),
and the `Segment` tagged union (`from_text` splitting, style backfill).

Modelling conventions:
* Unicode grapheme-cluster segmentation and the display-width table are
  external collaborators; a `Grapheme` therefore carries its cluster text
  together with its display width, and a fill pattern is represented by its
  (externally computed) cluster sequence.
* Rust `String`/`&str` values are modelled as `List Char`.
* The `cycle().scan(..).collect()` loop of `FillSegment::ansi_string` is a
  potentially non-terminating iterator chain; it is embedded as the
  fuel-indexed loop `fillRun`, where `none` means the loop has not finished
  within the given number of iterator steps.  `fillRender` runs the loop with
  a fuel budget proved sufficient whenever the loop terminates at all.
-/

/-- A grapheme cluster together with its display width, as produced by the
external segmentation (`unicode_segmentation`) and width (`Grapheme::width`)
collaborators. -/
structure Grapheme where
  str : List Char
  width : Nat
deriving DecidableEq, Repr

/-- Display width of a cluster sequence: the sum of the cluster widths
(the accumulation performed by the `scan` state in the fill loop). -/
def gwidthSum (l : List Grapheme) : Nat := (l.map Grapheme.width).sum

/-- Concatenate a cluster sequence back into its character sequence
(`collect::<String>()`). -/
def clustersToChars (l : List Grapheme) : List Char := (l.map Grapheme.str).flatten

/-- Embedding of the iterator chain
`value.graphemes(true).cycle().scan(0, |len, g| { *len += g.width(); if *len <= w { Some(g) } else { None } }).collect()`:
`p` is the pattern's cluster sequence, `cur` the not-yet-consumed part of the
current cycle, `len` the scan state, and `fuel` bounds the number of iterator
steps (`none` = the chain did not finish within `fuel` steps).  When `cur` is
exhausted, `cycle()` restarts from `p`, except that the cycle of an empty
iterator is itself empty and ends the chain. -/
def fillRun (p : List Grapheme) (w : Nat) : List Grapheme → Nat → Nat → Option (List Grapheme)
  | _, _, 0 => none
  | [], len, fuel + 1 =>
    match p with
    | [] => some []
    | _ :: _ => fillRun p w p len fuel
  | g :: rest, len, fuel + 1 =>
    if len + g.width ≤ w then
      (fillRun p w rest (len + g.width) fuel).map (fun t => g :: t)
    else
      some []

/-- Fuel budget for `fillRun`; proved sufficient whenever the loop
terminates at all (`fillRun_cycle`). -/
def fillFuel (p : List Grapheme) (w : Nat) : Nat := (w + 2) * (p.length + 1)

/-- The cluster sequence produced by the width-bounded branch of
`FillSegment::ansi_string`; `none` exactly when the source loop diverges. -/
def fillRender (p : List Grapheme) (w : Nat) : Option (List Grapheme) :=
  fillRun p w p 0 (fillFuel p w)

/-- The fill loop started on pattern `p` with target width `w` never
finishes, whatever number of iterator steps it is given. -/
def FillDiverges (p : List Grapheme) (w : Nat) : Prop :=
  ∀ fuel, fillRun p w p 0 fuel = none

/-- Terminal color, mirroring `nu_ansi_term::Color`. -/
inductive Color where
  | black | red | green | yellow | blue | purple | cyan | white
  | darkGray | lightRed | lightGreen | lightYellow | lightBlue
  | lightPurple | lightCyan | lightGray
  | fixed (n : Nat)
  | rgb (r g b : Nat)
  | default
deriving DecidableEq, Repr

/-- Resolved terminal style, mirroring `nu_ansi_term::Style`. -/
structure AnsiStyle where
  foreground : Option Color := none
  background : Option Color := none
  is_bold : Bool := false
  is_dimmed : Bool := false
  is_italic : Bool := false
  is_underline : Bool := false
  is_blink : Bool := false
  is_reverse : Bool := false
  is_hidden : Bool := false
  is_strikethrough : Bool := false
deriving DecidableEq, Repr

/-- `nu_ansi_term::Style::default()`: no colors, no attributes. -/
def AnsiStyle.default : AnsiStyle := {}

/-- Modelled from the spec: the crate's `config::Style` type lives outside
`src/` (only its uses are in `src/segment.rs`).  Per spec section 6 it exposes a
possibly context-sensitive resolution `to_ansi_style(prev)`, and per section
4.3 a style stored through `SeparatorSegment::set_style` (built from a
resolved `AnsiStyle` via `From<AnsiStyle>`) is "used ... in place of the
normal style-resolution path".  A `Style` is therefore either a raw
configured style with its resolution function, or an already-resolved
override. -/
inductive Style where
  | raw (resolve : Option AnsiStyle → AnsiStyle)
  | resolved (s : AnsiStyle)

/-- Modelled from the spec: `config::Style::to_ansi_style(prev)`; raw styles
resolve against the previous resolved style, stored resolved overrides are
returned unchanged. -/
def Style.to_ansi_style : Style → Option AnsiStyle → AnsiStyle
  | .raw f, prev => f prev
  | .resolved s, _ => s

/-- Modelled from the spec: `From<AnsiStyle> for config::Style` (the `.into()`
used by `SeparatorSegment::set_style`). -/
def Style.ofAnsi (s : AnsiStyle) : Style := .resolved s

/-- A styled piece of text, mirroring `nu_ansi_term::AnsiString`. -/
structure AnsiString where
  style : AnsiStyle
  text : List Char
deriving Repr

/-- `style.paint(text)`. -/
def AnsiString.paint (st : AnsiStyle) (s : List Char) : AnsiString := ⟨st, s⟩

/-- `AnsiString::from(text)`: unstyled text. -/
def AnsiString.ofValue (s : List Char) : AnsiString := ⟨AnsiStyle.default, s⟩

/-- `SeparatorSegment`: style, glyph value, and facing direction. -/
structure SeparatorSegment where
  style : Option Style
  value : List Char
  left : Bool

/-- `SeparatorSegment::ansi_string`. -/
def SeparatorSegment.ansi_string (ss : SeparatorSegment) (prev : Option AnsiStyle) : AnsiString :=
  match ss.style with
  | some style => AnsiString.paint (style.to_ansi_style prev) ss.value
  | none => AnsiString.ofValue ss.value

/-- `SeparatorSegment::is_left`. -/
def SeparatorSegment.is_left (ss : SeparatorSegment) : Bool := ss.left

/-- `SeparatorSegment::derive_style`: start from the default style and copy
the neighbors' backgrounds into the foreground/background slots. -/
def SeparatorSegment.derive_style (_ss : SeparatorSegment)
    (prev next : Option AnsiStyle) : AnsiStyle :=
  match prev, next with
  | some prev, some next =>
    { AnsiStyle.default with foreground := next.background, background := prev.background }
  | some prev, none =>
    { AnsiStyle.default with foreground := prev.background }
  | none, some next =>
    { AnsiStyle.default with foreground := next.background }
  | none, none => AnsiStyle.default

/-- `SeparatorSegment::set_style`: store `style.map(|s| s.into())`. -/
def SeparatorSegment.set_style (ss : SeparatorSegment) (style : Option AnsiStyle) :
    SeparatorSegment :=
  { ss with style := style.map Style.ofAnsi }

/-- `TextSegment`: style and text value. -/
structure TextSegment where
  style : Option Style
  value : List Char

/-- `TextSegment::ansi_string`. -/
def TextSegment.ansi_string (ts : TextSegment) (prev : Option AnsiStyle) : AnsiString :=
  match ts.style with
  | some style => AnsiString.paint (style.to_ansi_style prev) ts.value
  | none => AnsiString.ofValue ts.value

/-- `FillSegment`: style and repeating pattern, the latter represented by its
external grapheme-cluster segmentation. -/
structure FillSegment where
  style : Option Style
  value : List Grapheme

/-- `FillSegment::ansi_string`: with a target width, run the cycling loop
(`none` if the source loop diverges); without one, render the pattern
verbatim.  Then apply the style exactly as for text. -/
def FillSegment.ansi_string (fs : FillSegment) (width : Option Nat)
    (prev : Option AnsiStyle) : Option AnsiString :=
  let s? := match width with
    | some w => fillRender fs.value w
    | none => some fs.value
  s?.map (fun clusters =>
    match fs.style with
    | some style => AnsiString.paint (style.to_ansi_style prev) (clustersToChars clusters)
    | none => AnsiString.ofValue (clustersToChars clusters))

/-- The `Segment` tagged union. -/
inductive Segment where
  | Text (ts : TextSegment)
  | Fill (fs : FillSegment)
  | Separator (ss : SeparatorSegment)
  | LineTerm

/-- `LINE_TERMINATOR`. -/
def LINE_TERMINATOR : Char := '\n'

/-- `LINE_TERMINATOR_STRING`. -/
def LINE_TERMINATOR_STRING : List Char := ['\n']

/-- Embedding of Rust `str::split(LINE_TERMINATOR)`: the list of pieces
between terminator occurrences, always non-empty, keeping empty pieces. -/
def splitLines : List Char → List (List Char)
  | [] => [[]]
  | c :: rest =>
    if c = LINE_TERMINATOR then
      [] :: splitLines rest
    else
      match splitLines rest with
      | [] => [[c]]
      | p :: ps => (c :: p) :: ps

/-- The accumulator loop of `Segment::from_text`: for each piece, push a
`LineTerm` first unless the accumulated list is still empty, then push the
piece as a `Text` segment. -/
def fromTextLoop (style : Option Style) : List (List Char) → List Segment → List Segment
  | [], segs => segs
  | s :: rest, segs =>
    fromTextLoop style rest
      ((segs ++ (if segs.isEmpty then [] else [Segment.LineTerm])) ++
        [Segment.Text ⟨style, s⟩])

/-- `Segment::from_text`. -/
def Segment.from_text (style : Option Style) (value : List Char) : List Segment :=
  fromTextLoop style (splitLines value) []

/-- Embedding of Rust `str::ends_with` on a character-list pattern
(suffix test). -/
def listEndsWith (s pat : List Char) : Bool := pat.isSuffixOf s

/-- Embedding of Rust `str::trim_end_matches(cs)`: remove every trailing
character contained in `cs`. -/
def trimEndMatches (s : List Char) (cs : List Char) : List Char :=
  (s.reverse.dropWhile (fun c => cs.contains c)).reverse

/-- `Segment::separator`: direction from a trailing `'l'`, value with all
trailing `'l'`/`'r'` markers stripped. -/
def Segment.separator (style : Option Style) (raw : List Char) : Segment :=
  .Separator ⟨style, trimEndMatches raw ['l', 'r'], listEndsWith raw ['l']⟩

/-- The raw `style` field of a segment's variant (`None` for `LineTerm`). -/
def Segment.styleField : Segment → Option Style
  | .Text ts => ts.style
  | .Fill fs => fs.style
  | .Separator ss => ss.style
  | .LineTerm => none

/-- `Segment::style`: the variant's style resolved with no previous
context. -/
def Segment.style : Segment → Option AnsiStyle
  | .Text ts => ts.style.map (·.to_ansi_style none)
  | .Fill fs => fs.style.map (·.to_ansi_style none)
  | .Separator ss => ss.style.map (·.to_ansi_style none)
  | .LineTerm => none

/-- `Segment::set_style_if_empty`: backfill the variant's style if it is
`None`; `LineTerm` is untouched. -/
def Segment.set_style_if_empty (seg : Segment) (style : Option Style) : Segment :=
  match seg with
  | .Text ts => if ts.style.isNone then .Text { ts with style := style } else .Text ts
  | .Fill fs => if fs.style.isNone then .Fill { fs with style := style } else .Fill fs
  | .Separator ss =>
    if ss.style.isNone then .Separator { ss with style := style } else .Separator ss
  | .LineTerm => .LineTerm

/-- `Segment::value` (the terminator string for `LineTerm`). -/
def Segment.value : Segment → List Char
  | .Text ts => ts.value
  | .Fill fs => clustersToChars fs.value
  | .Separator ss => ss.value
  | .LineTerm => LINE_TERMINATOR_STRING

/-- `Segment::is_linebreak`. -/
def Segment.is_linebreak : Segment → Bool
  | .LineTerm => true
  | _ => false

/-! ## Fill loop analysis -/

/-- One greedy width-bounded pass of the scan predicate over a finite cluster
list: the accepted clusters, and whether the pass stopped early (`true`) or
consumed the whole list (`false`). -/
def greedyFin (w : Nat) : List Grapheme → Nat → List Grapheme × Bool
  | [], _ => ([], false)
  | g :: rest, len =>
    if len + g.width ≤ w then
      let r := greedyFin w rest (len + g.width)
      (g :: r.1, r.2)
    else
      ([], true)

theorem gwidthSum_nil : gwidthSum [] = 0 := rfl

theorem gwidthSum_cons (g : Grapheme) (l : List Grapheme) :
    gwidthSum (g :: l) = g.width + gwidthSum l := by
  simp [gwidthSum]

theorem gwidthSum_append (a b : List Grapheme) :
    gwidthSum (a ++ b) = gwidthSum a + gwidthSum b := by
  simp [gwidthSum]

theorem greedyFin_decomp (w : Nat) (cur : List Grapheme) :
    ∀ len, ∃ u, (greedyFin w cur len).1 ++ u = cur := by
  induction cur with
  | nil => exact fun len => ⟨[], rfl⟩
  | cons g rest ih =>
    intro len
    by_cases h : len + g.width ≤ w
    · obtain ⟨u, hu⟩ := ih (len + g.width)
      exact ⟨u, by simp [greedyFin, h, hu]⟩
    · exact ⟨g :: rest, by simp [greedyFin, h]⟩

theorem greedyFin_false (w : Nat) (cur : List Grapheme) :
    ∀ len, (greedyFin w cur len).2 = false → (greedyFin w cur len).1 = cur := by
  induction cur with
  | nil => intro len _; rfl
  | cons g rest ih =>
    intro len h
    by_cases hc : len + g.width ≤ w
    · have h2 : (greedyFin w rest (len + g.width)).2 = false := by
        simpa [greedyFin, hc] using h
      simp [greedyFin, hc, ih (len + g.width) h2]
    · simp [greedyFin, hc] at h

theorem greedyFin_true (w : Nat) (cur : List Grapheme) :
    ∀ len, (greedyFin w cur len).2 = true →
      ∃ g u, cur = (greedyFin w cur len).1 ++ g :: u ∧
        w < len + gwidthSum (greedyFin w cur len).1 + g.width := by
  induction cur with
  | nil => intro len h; simp [greedyFin] at h
  | cons g rest ih =>
    intro len h
    by_cases hc : len + g.width ≤ w
    · have h2 : (greedyFin w rest (len + g.width)).2 = true := by
        simpa [greedyFin, hc] using h
      have hfst : (greedyFin w (g :: rest) len).1 =
          g :: (greedyFin w rest (len + g.width)).1 := by
        simp [greedyFin, hc]
      obtain ⟨g2, u, hdec, hw⟩ := ih (len + g.width) h2
      refine ⟨g2, u, ?_, ?_⟩
      · rw [hfst]
        conv_lhs => rw [hdec]
        simp
      · rw [hfst, gwidthSum_cons]
        omega
    · refine ⟨g, rest, ?_, ?_⟩
      · simp [greedyFin, hc]
      · have hfst : (greedyFin w (g :: rest) len).1 = [] := by simp [greedyFin, hc]
        rw [hfst, gwidthSum_nil]
        omega

theorem greedyFin_le (w : Nat) (cur : List Grapheme) :
    ∀ len, len ≤ w → len + gwidthSum (greedyFin w cur len).1 ≤ w := by
  induction cur with
  | nil => intro len h; simpa [greedyFin, gwidthSum_nil] using h
  | cons g rest ih =>
    intro len h
    by_cases hc : len + g.width ≤ w
    · have hfst : (greedyFin w (g :: rest) len).1 =
          g :: (greedyFin w rest (len + g.width)).1 := by
        simp [greedyFin, hc]
      have := ih (len + g.width) hc
      rw [hfst, gwidthSum_cons]
      omega
    · simpa [greedyFin, hc, gwidthSum_nil] using h

theorem fillRun_stop (p : List Grapheme) (w : Nat) (cur : List Grapheme) :
    ∀ len f, (greedyFin w cur len).2 = true →
      fillRun p w cur len (f + cur.length) = some (greedyFin w cur len).1 := by
  induction cur with
  | nil => intro len f h; simp [greedyFin] at h
  | cons g rest ih =>
    intro len f h
    have hl : f + (g :: rest).length = (f + rest.length) + 1 := by
      simp [List.length_cons]; omega
    rw [hl]
    by_cases hc : len + g.width ≤ w
    · have h2 : (greedyFin w rest (len + g.width)).2 = true := by
        simpa [greedyFin, hc] using h
      have hfst : (greedyFin w (g :: rest) len).1 =
          g :: (greedyFin w rest (len + g.width)).1 := by
        simp [greedyFin, hc]
      rw [hfst]
      simp only [fillRun, hc, if_pos]
      rw [ih (len + g.width) f h2]
      rfl
    · have hfst : (greedyFin w (g :: rest) len).1 = [] := by simp [greedyFin, hc]
      rw [hfst]
      simp [fillRun, hc]

theorem fillRun_go (q : Grapheme) (qs : List Grapheme) (w : Nat) (cur : List Grapheme) :
    ∀ len f, (greedyFin w cur len).2 = false →
      fillRun (q :: qs) w cur len (f + cur.length + 1) =
        (fillRun (q :: qs) w (q :: qs) (len + gwidthSum cur) f).map (fun t => cur ++ t) := by
  induction cur with
  | nil =>
    intro len f _
    rw [show f + List.length [] + 1 = f + 1 from by simp]
    rw [show len + gwidthSum [] = len from by simp [gwidthSum_nil]]
    simp only [fillRun]
    cases fillRun (q :: qs) w (q :: qs) len f <;> simp
  | cons g rest ih =>
    intro len f h
    by_cases hc : len + g.width ≤ w
    · have h2 : (greedyFin w rest (len + g.width)).2 = false := by
        simpa [greedyFin, hc] using h
      have hl : f + (g :: rest).length + 1 = (f + rest.length + 1) + 1 := by
        simp [List.length_cons]; omega
      rw [hl]
      simp only [fillRun, hc, if_pos]
      rw [ih (len + g.width) f h2]
      rw [show len + g.width + gwidthSum rest = len + gwidthSum (g :: rest) from by
        rw [gwidthSum_cons]; omega]
      cases fillRun (q :: qs) w (q :: qs) (len + gwidthSum (g :: rest)) f <;> simp
    · exfalso
      have : (greedyFin w (g :: rest) len).2 = true := by simp [greedyFin, hc]
      rw [h] at this
      exact Bool.false_ne_true this

theorem fillRun_mono (p : List Grapheme) (w : Nat) :
    ∀ f1 cur len s f2, fillRun p w cur len f1 = some s → f1 ≤ f2 →
      fillRun p w cur len f2 = some s := by
  intro f1
  induction f1 with
  | zero => intro cur len s f2 h _; simp [fillRun] at h
  | succ f1 ih =>
    intro cur len s f2 h hle
    obtain ⟨f2p, rfl⟩ : ∃ f2p, f2 = f2p + 1 := by
      cases f2 with
      | zero => omega
      | succ n => exact ⟨n, rfl⟩
    cases cur with
    | nil =>
      cases p with
      | nil => simpa [fillRun] using h
      | cons q qs =>
        simp only [fillRun] at h ⊢
        exact ih _ _ _ _ h (by omega)
    | cons g rest =>
      by_cases hc : len + g.width ≤ w
      · simp only [fillRun, hc, if_pos] at h ⊢
        obtain ⟨s0, hs0, rfl⟩ := Option.map_eq_some'.mp h
        rw [ih _ _ _ _ hs0 (by omega)]
        rfl
      · simpa [fillRun, hc] using h

theorem fillRun_allZero (q : Grapheme) (qs : List Grapheme) (w : Nat)
    (hz : ∀ g ∈ q :: qs, g.width = 0) :
    ∀ fuel cur len, (∀ g ∈ cur, g.width = 0) → len ≤ w →
      fillRun (q :: qs) w cur len fuel = none := by
  intro fuel
  induction fuel with
  | zero => intro cur len _ _; cases cur <;> rfl
  | succ fuel ih =>
    intro cur len hcz hlw
    cases cur with
    | nil =>
      simp only [fillRun]
      exact ih (q :: qs) len hz hlw
    | cons g rest =>
      have hg : g.width = 0 := hcz g (by simp)
      have hc : len + g.width ≤ w := by omega
      simp only [fillRun, hc, if_pos]
      rw [ih rest (len + g.width) (fun x hx => hcz x (by simp [hx])) (by omega)]
      rfl

/-- `k` concatenated copies of `p`. -/
def repeatList (k : Nat) (p : List Grapheme) : List Grapheme :=
  match k with
  | 0 => []
  | k + 1 => p ++ repeatList k p

/-- `s` is a finite initial part of the infinite cyclic repetition of `p`:
some number of whole copies of `p` followed by an initial part of `p` —
whole clusters only, in cycle order, nothing added. -/
def CyclePre (p s : List Grapheme) : Prop :=
  ∃ k t u, t ++ u = p ∧ s = repeatList k p ++ t

theorem CyclePre.shift {p s : List Grapheme} (h : CyclePre p s) : CyclePre p (p ++ s) := by
  obtain ⟨k, t, u, htu, hs⟩ := h
  exact ⟨k + 1, t, u, htu, by simp [repeatList, hs, List.append_assoc]⟩

theorem cyclePre_of_part {p t u : List Grapheme} (h : t ++ u = p) : CyclePre p t :=
  ⟨0, t, u, h, by simp [repeatList]⟩

theorem cyclePre_dest {p t : List Grapheme} (h : CyclePre p t) :
    (∃ u, t ++ u = p) ∨ (∃ t2, t = p ++ t2 ∧ CyclePre p t2) := by
  obtain ⟨k, t0, u, htu, hs⟩ := h
  cases k with
  | zero =>
    left
    refine ⟨u, ?_⟩
    simp [repeatList] at hs
    rw [hs]
    exact htu
  | succ k =>
    right
    exact ⟨repeatList k p ++ t0, by simp [repeatList, hs, List.append_assoc],
      ⟨k, t0, u, htu, rfl⟩⟩

theorem fillRun_cycle_stop (w : Nat) (p : List Grapheme) (len : Nat) (hlw : len ≤ w)
    (hstop : (greedyFin w p len).2 = true) :
    ∃ s f, f ≤ (w - len + 2) * (p.length + 1) ∧
      fillRun p w p len f = some s ∧
      len + gwidthSum s ≤ w ∧
      CyclePre p s ∧
      ∀ t, CyclePre p t → len + gwidthSum t ≤ w →
        gwidthSum t ≤ gwidthSum s ∧ t.length ≤ s.length := by
  obtain ⟨g0, u0, hdec, hover⟩ := greedyFin_true w p len hstop
  refine ⟨(greedyFin w p len).1, p.length, ?_, ?_, ?_, ?_, ?_⟩
  · have h2 : 2 * (p.length + 1) ≤ (w - len + 2) * (p.length + 1) :=
      Nat.mul_le_mul_right _ (by omega)
    omega
  · have := fillRun_stop p w p len 0 hstop
    simpa using this
  · exact greedyFin_le w p len hlw
  · exact cyclePre_of_part hdec.symm
  · intro t ht hle
    rcases cyclePre_dest ht with ⟨v, hv⟩ | ⟨t2, ht2, _⟩
    · rw [hdec] at hv
      rcases List.append_eq_append_iff.mp hv with ⟨a, ha1, _⟩ | ⟨c, hc1, hc2⟩
      · constructor
        · rw [ha1, gwidthSum_append]
          omega
        · rw [ha1]
          simp
      · cases c with
        | nil =>
          rw [hc1]
          simp [gwidthSum_append]
        | cons c0 cs =>
          exfalso
          simp only [List.cons_append] at hc2
          injection hc2 with hg0 _
          rw [hc1, gwidthSum_append, gwidthSum_cons, ← hg0] at hle
          omega
    · exfalso
      have hgw : gwidthSum p = gwidthSum (greedyFin w p len).1 + (g0.width + gwidthSum u0) :=
        calc gwidthSum p = gwidthSum ((greedyFin w p len).1 ++ g0 :: u0) := by rw [← hdec]
          _ = gwidthSum (greedyFin w p len).1 + (g0.width + gwidthSum u0) := by
              rw [gwidthSum_append, gwidthSum_cons]
      rw [ht2, gwidthSum_append] at hle
      omega

theorem fillRun_cycle (w : Nat) (q : Grapheme) (qs : List Grapheme)
    (hW : 0 < gwidthSum (q :: qs)) :
    ∀ d len, len ≤ w → w - len ≤ d →
      ∃ s f, f ≤ (w - len + 2) * ((q :: qs).length + 1) ∧
        fillRun (q :: qs) w (q :: qs) len f = some s ∧
        len + gwidthSum s ≤ w ∧
        CyclePre (q :: qs) s ∧
        ∀ t, CyclePre (q :: qs) t → len + gwidthSum t ≤ w →
          gwidthSum t ≤ gwidthSum s ∧ t.length ≤ s.length := by
  intro d
  induction d with
  | zero =>
    intro len hlw hd
    cases hst : (greedyFin w (q :: qs) len).2 with
    | true => exact fillRun_cycle_stop w (q :: qs) len hlw hst
    | false =>
      exfalso
      have hfull := greedyFin_false w (q :: qs) len hst
      have hle2 := greedyFin_le w (q :: qs) len hlw
      rw [hfull] at hle2
      omega
  | succ d ih =>
    intro len hlw hd
    cases hst : (greedyFin w (q :: qs) len).2 with
    | true => exact fillRun_cycle_stop w (q :: qs) len hlw hst
    | false =>
      have hfull := greedyFin_false w (q :: qs) len hst
      have hle2 := greedyFin_le w (q :: qs) len hlw
      rw [hfull] at hle2
      obtain ⟨s1, f1, hb1, hrun1, hlen1, hcp1, hmax1⟩ :=
        ih (len + gwidthSum (q :: qs)) hle2 (by omega)
      refine ⟨(q :: qs) ++ s1, f1 + (q :: qs).length + 1, ?_, ?_, ?_, ?_, ?_⟩
      · have hsucc : (w - (len + gwidthSum (q :: qs)) + 2 + 1) * ((q :: qs).length + 1)
            = (w - (len + gwidthSum (q :: qs)) + 2) * ((q :: qs).length + 1)
              + ((q :: qs).length + 1) := by
          ring
        have hmul : (w - (len + gwidthSum (q :: qs)) + 2 + 1) * ((q :: qs).length + 1)
            ≤ (w - len + 2) * ((q :: qs).length + 1) :=
          Nat.mul_le_mul_right _ (by omega)
        omega
      · rw [fillRun_go q qs w (q :: qs) len f1 hst, hrun1]
        rfl
      · rw [gwidthSum_append]
        omega
      · exact hcp1.shift
      · intro t ht hle
        rcases cyclePre_dest ht with ⟨v, hv⟩ | ⟨t2, ht2, hcpt2⟩
        · have hww : gwidthSum t + gwidthSum v = gwidthSum (q :: qs) := by
            rw [← hv, gwidthSum_append]
          have hlt2 : t.length + v.length = (q :: qs).length := by
            rw [← hv]
            simp
          constructor
          · rw [gwidthSum_append]
            omega
          · simp only [List.length_append]
            simp at hlt2
            simp
            omega
        · have hle2t : (len + gwidthSum (q :: qs)) + gwidthSum t2 ≤ w := by
            rw [ht2, gwidthSum_append] at hle
            omega
          obtain ⟨hw2, hl2⟩ := hmax1 t2 hcpt2 hle2t
          constructor
          · rw [ht2, gwidthSum_append, gwidthSum_append]
            omega
          · rw [ht2]
            simp only [List.length_append]
            omega

/-! ## Claims C1, C2, C3: fill rendering -/

/-- C1 (amended): for every pattern containing at least one grapheme cluster
of non-zero display width — amended from "every non-empty pattern", which
fails for all-zero-width patterns — and every target width `w`, the fill
loop terminates and produces exactly the greedy prefix of the infinitely
cycled cluster sequence: a cycle prefix (whole clusters in cycle order, no
cluster split, no padding added) whose display width is at most `w`, and
which is both widest and longest among all cycle prefixes of display width
at most `w`. -/
theorem C1_fill_greedy (p : List Grapheme) (w : Nat) (hW : 0 < gwidthSum p) :
    ∃ s, fillRender p w = some s ∧ CyclePre p s ∧ gwidthSum s ≤ w ∧
      ∀ t, CyclePre p t → gwidthSum t ≤ w →
        gwidthSum t ≤ gwidthSum s ∧ t.length ≤ s.length := by
  obtain ⟨q, qs, rfl⟩ : ∃ q qs, p = q :: qs := by
    cases p with
    | nil => simp [gwidthSum] at hW
    | cons q qs => exact ⟨q, qs, rfl⟩
  obtain ⟨s, f, hb, hrun, hlen, hcp, hmax⟩ :=
    fillRun_cycle w q qs hW w 0 (Nat.zero_le w) (by omega)
  refine ⟨s, ?_, hcp, by simpa using hlen, fun t ht hle => hmax t ht (by simpa using hle)⟩
  have hf : f ≤ fillFuel (q :: qs) w := by
    have hww : w - 0 + 2 = w + 2 := by omega
    rw [hww] at hb
    simpa [fillFuel] using hb
  simpa [fillRender] using
    fillRun_mono (q :: qs) w f (q :: qs) 0 s (fillFuel (q :: qs) w) hrun hf

/-- Witness for C1 at the pattern `"."` (one cluster of width 1) and target
width 3. -/
theorem C1_fill_greedy_witness :
    0 < gwidthSum [⟨['.'], 1⟩] ∧
      (∃ s, fillRender [⟨['.'], 1⟩] 3 = some s ∧ CyclePre [⟨['.'], 1⟩] s ∧
        gwidthSum s ≤ 3 ∧
        ∀ t, CyclePre [⟨['.'], 1⟩] t → gwidthSum t ≤ 3 →
          gwidthSum t ≤ gwidthSum s ∧ t.length ≤ s.length) :=
  ⟨by decide, C1_fill_greedy [⟨['.'], 1⟩] 3 (by decide)⟩

/-- Counterexample to C1 as stated: the pattern consisting of the single
zero-width cluster U+200D is non-empty, yet at target width 1 the source
loop never finishes, so no output string is produced at all. -/
theorem C1_cex :
    FillDiverges [⟨[Char.ofNat 0x200D], 0⟩] 1 ∧
      fillRender [⟨[Char.ofNat 0x200D], 0⟩] 1 = none := by
  have hd : FillDiverges [⟨[Char.ofNat 0x200D], 0⟩] 1 := fun fuel =>
    fillRun_allZero ⟨[Char.ofNat 0x200D], 0⟩ [] 1 (by decide) fuel
      [⟨[Char.ofNat 0x200D], 0⟩] 0 (by decide) (by omega)
  exact ⟨hd, hd (fillFuel [⟨[Char.ofNat 0x200D], 0⟩] 1)⟩

/-- C2: at the failing input — pattern = the single zero-width cluster
U+200B, target width 0 — the fill loop never finishes whatever the number
of iterator steps: rendering is not total, contradicting the claimed
termination for patterns of only zero-width clusters. -/
theorem C2_zero_width_loop :
    FillDiverges [⟨[Char.ofNat 0x200B], 0⟩] 0 ∧
      fillRender [⟨[Char.ofNat 0x200B], 0⟩] 0 = none := by
  have hd : FillDiverges [⟨[Char.ofNat 0x200B], 0⟩] 0 := fun fuel =>
    fillRun_allZero ⟨[Char.ofNat 0x200B], 0⟩ [] 0 (by decide) fuel
      [⟨[Char.ofNat 0x200B], 0⟩] 0 (by decide) (by omega)
  exact ⟨hd, hd (fillFuel [⟨[Char.ofNat 0x200B], 0⟩] 0)⟩

/-- C3 (amended): the empty pattern renders empty output for every target
width; and target width 0 renders empty output for every pattern whose
first cluster has non-zero display width — amended from "every pattern":
a pattern beginning with a zero-width cluster emits that cluster even at
width 0. -/
theorem C3_empty_and_zero_width (w : Nat) (p : List Grapheme) (g : Grapheme)
    (hg : 0 < g.width) :
    fillRender [] w = some [] ∧ fillRender (g :: p) 0 = some [] := by
  constructor
  · have h1 : fillFuel ([] : List Grapheme) w = w + 1 + 1 := by
      simp [fillFuel]
    have h2 : ∀ f : Nat, fillRun ([] : List Grapheme) w [] 0 (f + 1) = some [] :=
      fun f => rfl
    calc fillRender [] w = fillRun [] w [] 0 (fillFuel [] w) := rfl
      _ = fillRun [] w [] 0 (w + 1 + 1) := by rw [h1]
      _ = some [] := h2 (w + 1)
  · obtain ⟨f, hf⟩ : ∃ f, fillFuel (g :: p) 0 = f + 1 :=
      ⟨2 * p.length + 3, by simp [fillFuel, List.length_cons]; ring⟩
    rw [fillRender, hf]
    have hc : ¬ (0 + g.width ≤ 0) := by omega
    simp [fillRun, hc]
    omega

/-- Witness for C3 at width 5 (empty pattern) and the one-cluster pattern
`"a"` of width 1 (target width 0). -/
theorem C3_empty_and_zero_width_witness :
    0 < (⟨['a'], 1⟩ : Grapheme).width ∧
      (fillRender [] 5 = some [] ∧ fillRender [⟨['a'], 1⟩] 0 = some []) :=
  ⟨by decide, C3_empty_and_zero_width 5 [] ⟨['a'], 1⟩ (by decide)⟩

/-- Counterexample to C3 as stated: at target width 0, the pattern whose
cluster sequence is U+200B (width 0) followed by `a` (width 1) renders the
zero-width cluster, not empty output. -/
theorem C3_cex :
    fillRender [⟨[Char.ofNat 0x200B], 0⟩, ⟨['a'], 1⟩] 0 =
        some [⟨[Char.ofNat 0x200B], 0⟩] ∧
      fillRender [⟨[Char.ofNat 0x200B], 0⟩, ⟨['a'], 1⟩] 0 ≠ some [] := by
  constructor
  · decide
  · decide

/-! ## Claims C4, C5: `from_text` -/

theorem splitLines_ne_nil (l : List Char) : splitLines l ≠ [] := by
  cases l with
  | nil => simp [splitLines]
  | cons c rest =>
    rw [splitLines]
    by_cases h : c = LINE_TERMINATOR
    · simp [h]
    · rw [if_neg h]
      cases hs : splitLines rest <;> simp

/-- The alternating Text/LineTerm normal form of `from_text`: the first
piece as a Text segment, then a LineTerm before each further piece. -/
def interleaveSegs (style : Option Style) : List (List Char) → List Segment
  | [] => []
  | p :: ps =>
    Segment.Text ⟨style, p⟩ ::
      ps.flatMap (fun s => [Segment.LineTerm, Segment.Text ⟨style, s⟩])

theorem fromTextLoop_acc (style : Option Style) (ps : List (List Char)) :
    ∀ segs, segs ≠ [] →
      fromTextLoop style ps segs =
        segs ++ ps.flatMap (fun s => [Segment.LineTerm, Segment.Text ⟨style, s⟩]) := by
  induction ps with
  | nil => intro segs _; simp [fromTextLoop]
  | cons s rest ih =>
    intro segs hne
    rw [fromTextLoop]
    have hie : segs.isEmpty = false := by
      cases segs with
      | nil => exact absurd rfl hne
      | cons a as => rfl
    rw [hie]
    simp only [Bool.false_eq_true, if_false]
    rw [ih ((segs ++ [Segment.LineTerm]) ++ [Segment.Text ⟨style, s⟩]) (by simp)]
    simp [List.append_assoc]

theorem from_text_normal (style : Option Style) (raw : List Char) :
    Segment.from_text style raw = interleaveSegs style (splitLines raw) := by
  rw [Segment.from_text]
  obtain ⟨p, ps, hsp⟩ : ∃ p ps, splitLines raw = p :: ps := by
    cases hs : splitLines raw with
    | nil => exact absurd hs (splitLines_ne_nil raw)
    | cons p ps => exact ⟨p, ps, rfl⟩
  rw [hsp, fromTextLoop]
  simp only [List.isEmpty_nil, if_true, List.nil_append]
  rw [fromTextLoop_acc style ps [Segment.Text ⟨style, p⟩] (by simp)]
  simp [interleaveSegs]

/-- Glue the pieces of a split back together with the terminator. -/
def joinLines : List (List Char) → List Char
  | [] => []
  | p :: ps => p ++ ps.flatMap (fun s => LINE_TERMINATOR :: s)

theorem joinLines_splitLines (l : List Char) : joinLines (splitLines l) = l := by
  induction l with
  | nil => rfl
  | cons c rest ih =>
    obtain ⟨p, ps, hsp⟩ : ∃ p ps, splitLines rest = p :: ps := by
      cases hs : splitLines rest with
      | nil => exact absurd hs (splitLines_ne_nil rest)
      | cons p ps => exact ⟨p, ps, rfl⟩
    rw [hsp] at ih
    rw [splitLines]
    by_cases h : c = LINE_TERMINATOR
    · rw [if_pos h, hsp]
      simp only [joinLines, List.flatMap_cons, List.nil_append, List.cons_append]
      rw [h]
      congr 1
    · rw [if_neg h, hsp]
      simp only [joinLines, List.cons_append]
      congr 1

/-- Concatenation of the `value()` of every segment, the terminator string
standing in for LineTerm. -/
def reconstructText (segs : List Segment) : List Char :=
  (segs.map Segment.value).flatten

theorem reconstruct_flatMap (style : Option Style) (ps : List (List Char)) :
    ((ps.flatMap (fun s => [Segment.LineTerm, Segment.Text ⟨style, s⟩])).map
        Segment.value).flatten = ps.flatMap (fun s => LINE_TERMINATOR :: s) := by
  induction ps with
  | nil => rfl
  | cons s rest ih =>
    simp only [List.flatMap_cons, List.map_append, List.flatten_append, ih,
      List.map_cons, List.map_nil, List.flatten_cons, List.flatten_nil,
      Segment.value, LINE_TERMINATOR_STRING, LINE_TERMINATOR]
    simp

/-- C4: for every style and every raw string, concatenating `value()` over
the segments of `from_text` in order — the terminator string standing in
for each LineTerm — reconstructs the raw string exactly. -/
theorem C4_roundtrip (style : Option Style) (raw : List Char) :
    reconstructText (Segment.from_text style raw) = raw := by
  rw [from_text_normal]
  obtain ⟨p, ps, hsp⟩ : ∃ p ps, splitLines raw = p :: ps := by
    cases hs : splitLines raw with
    | nil => exact absurd hs (splitLines_ne_nil raw)
    | cons p ps => exact ⟨p, ps, rfl⟩
  have hjl := joinLines_splitLines raw
  rw [hsp] at hjl
  rw [hsp]
  calc reconstructText (interleaveSegs style (p :: ps))
      = p ++ ps.flatMap (fun s => LINE_TERMINATOR :: s) := by
        simp only [interleaveSegs, reconstructText, List.map_cons, List.flatten_cons,
          Segment.value]
        rw [reconstruct_flatMap]
    _ = joinLines (p :: ps) := rfl
    _ = raw := hjl

/-- Discriminator for Text segments. -/
def isTextSeg : Segment → Bool
  | .Text _ => true
  | _ => false

theorem interleave_count_text (style : Option Style) (ps : List (List Char)) :
    (ps.flatMap (fun s => [Segment.LineTerm, Segment.Text ⟨style, s⟩])).countP
      isTextSeg = ps.length := by
  induction ps with
  | nil => rfl
  | cons s rest ih =>
    simp only [List.flatMap_cons, List.countP_append, ih, List.countP_cons,
      List.countP_nil, isTextSeg]
    simp
    omega

theorem interleave_count_break (style : Option Style) (ps : List (List Char)) :
    (ps.flatMap (fun s => [Segment.LineTerm, Segment.Text ⟨style, s⟩])).countP
      Segment.is_linebreak = ps.length := by
  induction ps with
  | nil => rfl
  | cons s rest ih =>
    simp only [List.flatMap_cons, List.countP_append, ih, List.countP_cons,
      List.countP_nil, Segment.is_linebreak]
    simp
    omega

theorem splitLines_no_term (l : List Char) (h : LINE_TERMINATOR ∉ l) :
    splitLines l = [l] := by
  induction l with
  | nil => rfl
  | cons c rest ih =>
    rw [splitLines]
    have hc : ¬ c = LINE_TERMINATOR := by
      intro hh
      exact h (by simp [hh])
    rw [if_neg hc, ih (fun hm => h (by simp [hm]))]

/-- C5: `from_text` yields the pieces of the raw string split on the line
terminator as Text segments in original order, with LineTerm segments
strictly between consecutive Text segments (none before the first, none
after the last — the `interleaveSegs` normal form); so N pieces give N Text
segments and N−1 LineBreak segments, and a string with no terminator gives
a single Text segment and no LineBreak. -/
theorem C5_split_structure (style : Option Style) (raw : List Char) :
    Segment.from_text style raw = interleaveSegs style (splitLines raw) ∧
      (Segment.from_text style raw).countP isTextSeg = (splitLines raw).length ∧
      (Segment.from_text style raw).countP Segment.is_linebreak =
        (splitLines raw).length - 1 ∧
      (LINE_TERMINATOR ∉ raw →
        Segment.from_text style raw = [Segment.Text ⟨style, raw⟩]) := by
  obtain ⟨p, ps, hsp⟩ : ∃ p ps, splitLines raw = p :: ps := by
    cases hs : splitLines raw with
    | nil => exact absurd hs (splitLines_ne_nil raw)
    | cons p ps => exact ⟨p, ps, rfl⟩
  refine ⟨from_text_normal style raw, ?_, ?_, ?_⟩
  · rw [from_text_normal, hsp]
    simp only [interleaveSegs, List.countP_cons, isTextSeg, List.length_cons]
    rw [interleave_count_text]
    simp
  · rw [from_text_normal, hsp]
    simp only [interleaveSegs, List.countP_cons, Segment.is_linebreak, List.length_cons]
    rw [interleave_count_break]
    simp
  · intro hnt
    rw [from_text_normal, splitLines_no_term raw hnt]
    rfl

/-- Witness for C5's no-terminator case at the raw string `"ab"`. -/
theorem C5_split_structure_witness :
    (LINE_TERMINATOR ∉ (['a', 'b'] : List Char)) ∧
      Segment.from_text none ['a', 'b'] = [Segment.Text ⟨none, ['a', 'b']⟩] :=
  ⟨by decide, (C5_split_structure none ['a', 'b']).2.2.2 (by decide)⟩

/-! ## Claim C6: separator construction -/

theorem endsWith_getLast (c : Char) (s : List Char) :
    listEndsWith s [c] = true ↔ s.getLast? = some c := by
  rw [listEndsWith, List.isSuffixOf]
  cases hs : s.reverse with
  | nil =>
    have hnil : s = [] := by
      have := congrArg List.reverse hs
      simpa using this
    subst hnil
    simp
  | cons b bs =>
    have hgl : s.getLast? = some b := by
      rw [← List.head?_reverse, hs]
      rfl
    rw [hgl]
    simp [List.isPrefixOf]
    constructor <;> intro h <;> simp [h]

theorem contains_lr (c : Char) :
    (['l', 'r'] : List Char).contains c = (c == 'l' || c == 'r') := by
  simp [List.contains]
  by_cases h1 : c = 'l' <;> by_cases h2 : c = 'r' <;> simp [h1, h2]

theorem trimEnd_no_marker (raw : List Char) (hl : raw.getLast? ≠ some 'l')
    (hr : raw.getLast? ≠ some 'r') : trimEndMatches raw ['l', 'r'] = raw := by
  rw [trimEndMatches]
  have hdw : raw.reverse.dropWhile (fun c => (['l', 'r'] : List Char).contains c)
      = raw.reverse := by
    cases hs : raw.reverse with
    | nil => rfl
    | cons b bs =>
      rw [List.dropWhile_cons]
      have hb : raw.getLast? = some b := by
        rw [← List.head?_reverse, hs]
        rfl
      have h1 : b ≠ 'l' := fun hh => hl (by rw [hb, hh])
      have h2 : b ≠ 'r' := fun hh => hr (by rw [hb, hh])
      have hcon : (['l', 'r'] : List Char).contains b = false := by
        rw [contains_lr]
        simp [h1, h2]
      rw [hcon]
      simp
  rw [hdw, List.reverse_reverse]

/-- C6: `separator(style, raw)` is left-facing exactly when `raw` ends with
the character `l` (anything else, including `r` or no marker, gives
right-facing), its stored value is `raw` with all trailing `l`/`r`
characters stripped from the end, and a value with no trailing marker is
retained in full. -/
theorem C6_separator_markers (st : Option Style) (raw : List Char) :
    ∃ ss, Segment.separator st raw = Segment.Separator ss ∧
      (ss.is_left = true ↔ raw.getLast? = some 'l') ∧
      ss.value = (raw.reverse.dropWhile (fun c => c == 'l' || c == 'r')).reverse ∧
      (raw.getLast? ≠ some 'l' → raw.getLast? ≠ some 'r' → ss.value = raw) := by
  refine ⟨_, rfl, ?_, ?_, ?_⟩
  · exact endsWith_getLast 'l' raw
  · show (raw.reverse.dropWhile (fun c => (['l', 'r'] : List Char).contains c)).reverse = _
    have hfun : (fun c : Char => (['l', 'r'] : List Char).contains c)
        = (fun c : Char => c == 'l' || c == 'r') := funext contains_lr
    rw [hfun]
  · intro h1 h2
    exact trimEnd_no_marker raw h1 h2

/-- Witness for C6's no-marker case at the raw value `">"`. -/
theorem C6_separator_markers_witness :
    ((['>'] : List Char).getLast? ≠ some 'l') ∧
      ((['>'] : List Char).getLast? ≠ some 'r') ∧
      ∃ ss, Segment.separator none ['>'] = Segment.Separator ss ∧ ss.value = ['>'] := by
  refine ⟨by decide, by decide, ?_⟩
  obtain ⟨ss, hseg, _, _, hfull⟩ := C6_separator_markers none ['>']
  exact ⟨ss, hseg, hfull (by decide) (by decide)⟩

/-! ## Claims C7, C10: separator style derivation -/

/-- C7: `derive_style` with both neighbors takes its foreground from the
next neighbor's background and its background from the previous neighbor's
background; with one neighbor it takes only the foreground from that
neighbor's background, leaving the background at default; with none it is
the fully default style. -/
theorem C7_derive_style_cases (ss : SeparatorSegment) (a b : AnsiStyle) :
    ss.derive_style (some a) (some b) =
        { AnsiStyle.default with
            foreground := b.background, background := a.background } ∧
      ss.derive_style (some a) none =
        { AnsiStyle.default with foreground := a.background } ∧
      ss.derive_style none (some b) =
        { AnsiStyle.default with foreground := b.background } ∧
      ss.derive_style none none = AnsiStyle.default ∧
      (ss.derive_style (some a) (some b)).foreground = b.background ∧
      (ss.derive_style (some a) (some b)).background = a.background :=
  ⟨rfl, rfl, rfl, rfl, rfl, rfl⟩

/-- C10: the derived style depends only on the presence and the background
of each neighbor: any two separator segments and any neighbor pairs whose
backgrounds agree derive the same style — foregrounds, attributes and the
separator's own state never influence it. -/
theorem C10_derive_only_backgrounds (s1 s2 : SeparatorSegment)
    (prev next prev2 next2 : Option AnsiStyle)
    (hp : prev.map AnsiStyle.background = prev2.map AnsiStyle.background)
    (hn : next.map AnsiStyle.background = next2.map AnsiStyle.background) :
    s1.derive_style prev next = s2.derive_style prev2 next2 := by
  cases prev <;> cases prev2 <;> cases next <;> cases next2 <;>
    simp_all [SeparatorSegment.derive_style]

/-- Witness for C10: neighbors agreeing only on backgrounds, separators in
different states. -/
theorem C10_derive_only_backgrounds_witness :
    ((some { foreground := some Color.red, background := some Color.blue } :
        Option AnsiStyle).map AnsiStyle.background =
      (some { background := some Color.blue } : Option AnsiStyle).map
        AnsiStyle.background) ∧
    ((some { background := some Color.green, is_bold := true } :
        Option AnsiStyle).map AnsiStyle.background =
      (some { background := some Color.green } : Option AnsiStyle).map
        AnsiStyle.background) ∧
    SeparatorSegment.derive_style ⟨none, [], false⟩
        (some { foreground := some Color.red, background := some Color.blue })
        (some { background := some Color.green, is_bold := true }) =
      SeparatorSegment.derive_style ⟨some (Style.resolved AnsiStyle.default), ['x'], true⟩
        (some { background := some Color.blue })
        (some { background := some Color.green }) :=
  ⟨rfl, rfl,
    C10_derive_only_backgrounds ⟨none, [], false⟩
      ⟨some (Style.resolved AnsiStyle.default), ['x'], true⟩
      (some { foreground := some Color.red, background := some Color.blue })
      (some { background := some Color.green, is_bold := true })
      (some { background := some Color.blue })
      (some { background := some Color.green }) rfl rfl⟩

/-! ## Claims C8, C9: style backfill and the resolved override -/

/-- C8 (amended): `set_style_if_empty` sets the variant's style to the
fallback only when the style is None (leaving the value untouched), is a
no-op for LineTerm and a no-op when a style is already set; and applying it
twice, the first call alone takes effect whenever the first fallback is a
set style — amended from unconditional idempotence: a first fallback of
None leaves the style empty, so a second call can still set it. -/
theorem C8_set_style_if_empty (seg : Segment) (f g : Option Style) :
    (seg.styleField ≠ none → seg.set_style_if_empty f = seg) ∧
      Segment.LineTerm.set_style_if_empty f = Segment.LineTerm ∧
      (seg ≠ Segment.LineTerm → seg.styleField = none →
        (seg.set_style_if_empty f).styleField = f ∧
        (seg.set_style_if_empty f).value = seg.value) ∧
      (f ≠ none →
        (seg.set_style_if_empty f).set_style_if_empty g = seg.set_style_if_empty f) := by
  refine ⟨?_, rfl, ?_, ?_⟩
  · intro hne
    cases seg with
    | Text ts =>
      cases hts : ts.style with
      | none => simp [Segment.styleField, hts] at hne
      | some s => simp [Segment.set_style_if_empty, hts]
    | Fill fs =>
      cases hfs : fs.style with
      | none => simp [Segment.styleField, hfs] at hne
      | some s => simp [Segment.set_style_if_empty, hfs]
    | Separator ss =>
      cases hss : ss.style with
      | none => simp [Segment.styleField, hss] at hne
      | some s => simp [Segment.set_style_if_empty, hss]
    | LineTerm => simp [Segment.styleField] at hne
  · intro hnl hnone
    cases seg with
    | Text ts =>
      have hts : ts.style = none := by simpa [Segment.styleField] using hnone
      exact ⟨by simp [Segment.set_style_if_empty, hts, Segment.styleField],
        by simp [Segment.set_style_if_empty, hts, Segment.value]⟩
    | Fill fs =>
      have hfs : fs.style = none := by simpa [Segment.styleField] using hnone
      exact ⟨by simp [Segment.set_style_if_empty, hfs, Segment.styleField],
        by simp [Segment.set_style_if_empty, hfs, Segment.value]⟩
    | Separator ss =>
      have hss : ss.style = none := by simpa [Segment.styleField] using hnone
      exact ⟨by simp [Segment.set_style_if_empty, hss, Segment.styleField],
        by simp [Segment.set_style_if_empty, hss, Segment.value]⟩
    | LineTerm => exact absurd rfl hnl
  · intro hf
    obtain ⟨f0, rfl⟩ : ∃ y, f = some y := by
      cases f with
      | none => exact absurd rfl hf
      | some y => exact ⟨y, rfl⟩
    cases seg with
    | Text ts =>
      cases hts : ts.style with
      | none => simp [Segment.set_style_if_empty, hts]
      | some s => simp [Segment.set_style_if_empty, hts]
    | Fill fs =>
      cases hfs : fs.style with
      | none => simp [Segment.set_style_if_empty, hfs]
      | some s => simp [Segment.set_style_if_empty, hfs]
    | Separator ss =>
      cases hss : ss.style with
      | none => simp [Segment.set_style_if_empty, hss]
      | some s => simp [Segment.set_style_if_empty, hss]
    | LineTerm => rfl

/-- Witness for C8 on a styleless Text segment, first fallback set, second
fallback None. -/
theorem C8_set_style_if_empty_witness :
    ((Segment.Text ⟨none, ['a']⟩) ≠ Segment.LineTerm) ∧
      ((some (Style.resolved AnsiStyle.default) : Option Style) ≠ none) ∧
      ((Segment.Text ⟨none, ['a']⟩).set_style_if_empty
          (some (Style.resolved AnsiStyle.default))).styleField =
        some (Style.resolved AnsiStyle.default) ∧
      ((Segment.Text ⟨none, ['a']⟩).set_style_if_empty
            (some (Style.resolved AnsiStyle.default))).set_style_if_empty none =
        (Segment.Text ⟨none, ['a']⟩).set_style_if_empty
          (some (Style.resolved AnsiStyle.default)) := by
  refine ⟨by simp, by simp, ?_, ?_⟩
  · exact ((C8_set_style_if_empty (Segment.Text ⟨none, ['a']⟩)
      (some (Style.resolved AnsiStyle.default)) none).2.2.1 (by simp) rfl).1
  · exact (C8_set_style_if_empty (Segment.Text ⟨none, ['a']⟩)
      (some (Style.resolved AnsiStyle.default)) none).2.2.2 (by simp)

/-- Counterexample to C8's unconditional "only the first call takes
effect": on a styleless Text segment, a first call with fallback None
leaves the style empty, and a second call with a set fallback changes the
segment. -/
theorem C8_cex :
    ((Segment.Text ⟨none, ['a']⟩).set_style_if_empty none).set_style_if_empty
        (some (Style.resolved AnsiStyle.default)) ≠
      (Segment.Text ⟨none, ['a']⟩).set_style_if_empty none := by
  simp [Segment.set_style_if_empty]

/-- C9: after `set_style` stores a pre-computed resolved style on a
separator segment, `ansi_string` renders the segment's value with exactly
that stored style, independent of the previous resolved style argument. -/
theorem C9_set_style_override (ss : SeparatorSegment) (st : AnsiStyle)
    (prev : Option AnsiStyle) :
    (ss.set_style (some st)).ansi_string prev = AnsiString.paint st ss.value := rfl
